import Mathlib

/-!
MidGen generation engine, as a shallow embedding.

A shallow embedding of `src/midgen_gui.py` (the MidGen generator worker and
the input validation of its main window), with the claims of the spec proved
against it.

Modelling conventions:
* Python ints are `ℤ`; Python floats are `ℚ` (the arithmetic the program does
  on them is exact at these magnitudes).
* Randomness is an injectable oracle: each measure consumes a `MeasureRand`
  record holding the outcomes of the `random.choice` / `random.random` /
  `random.randint` calls it performs, and the run receives a stream
  `ℕ → MeasureRand` plus the randomly chosen key root.
* Pitches are semitone numbers (`ℤ`).  `music21`'s `ks.getPitches()` on a
  major key returns the scale from the tonic up to and including the octave
  (eight pitches); `transpose M3` adds 4 semitones and `transpose P5` adds 7.
* The filesystem touched by the export step is a finite map from paths to
  file contents together with a set of existing directories; `os.replace`
  is modelled by `osReplace` below.
-/

namespace MidGen

/-- The pattern type combo-box items: "ARP","CHORD","PLUCK","PAD","BRASS","RAND". -/
inductive Pattern where
  | ARP
  | CHORD
  | PLUCK
  | PAD
  | BRASS
  | RAND
deriving DecidableEq, Repr

/-- A musical event appended to the `music21` part: a chord (list of
simultaneous pitches) or a single note, each with a `quarterLength` duration
in quarter-note units. -/
inductive MEvent where
  | chordEv (pitches : List ℤ) (quarterLength : ℚ)
  | noteEv (pitch : ℤ) (quarterLength : ℚ)
deriving DecidableEq, Repr

/-- One item of the observable trace of `GeneratorWorker.run`: a
`progress_changed.emit` value or an event appended to the part. -/
inductive TraceItem where
  | progress (p : ℤ)
  | ev (e : MEvent)
deriving DecidableEq, Repr

/-- The random outcomes consumed by one loop iteration (one measure):
`degreeIdx` selects from `[1,4,5]` (line 68), `accentRoll` is the
`random.random()` draw of line 78, `randCount` encodes `random.randint(2,6)`
of line 84 as `2 + randCount`, and `pitchIdx idx` is the index drawn by
`random.choice` for melody note number `idx` (lines 89/91), taken modulo the
length of the list being sampled. -/
structure MeasureRand where
  degreeIdx : Fin 3
  accentRoll : ℚ
  randCount : Fin 5
  pitchIdx : ℕ → ℕ

/-- `ks.getPitches()` for a major key with tonic pitch `root`: the major
scale from the tonic up to and including the octave. -/
def getPitches (root : ℤ) : List ℤ :=
  [root, root + 2, root + 4, root + 5, root + 7, root + 9, root + 11, root + 12]

/-- Line 39: `self.length = min(length_sec, 60)`. -/
def clampLength (length_sec : ℤ) : ℤ :=
  min length_sec 60

/-- Line 41: `self.crazy = max(-10, min(10, craziness))`. -/
def clampCraziness (craziness : ℤ) : ℤ :=
  max (-10) (min 10 craziness)

/-- Line 72: `base_len = {'PAD':4,'CHORD':2,'BRASS':2}.get(self.pattern,1)`. -/
def base_len (pattern : Pattern) : ℚ :=
  match pattern with
  | .PAD => 4
  | .CHORD => 2
  | .BRASS => 2
  | _ => 1

/-- Lines 93–96: the melody note duration before the `max(0.125, ·)` floor. -/
def noteDuration (crazy : ℤ) : ℚ :=
  if 0 ≤ crazy then 1 / (1 + (crazy : ℚ) / 10) else 1 * (1 + |(crazy : ℚ)| / 10)

/-- Line 70: `chord_notes = [root, root.transpose('M3'), root.transpose('P5')]`. -/
def chordTones (chordRoot : ℤ) : List ℤ :=
  [chordRoot, chordRoot + 4, chordRoot + 7]

/-- Lines 67–98: the events one loop iteration appends to the part, given the
already-clamped craziness `crazy`, the key tonic `root`, and the iteration's
random outcomes `r`. -/
def measureEvents (pattern : Pattern) (crazy : ℤ) (root : ℤ) (r : MeasureRand) :
    List MEvent :=
  let degree : ℕ := [1, 4, 5].get r.degreeIdx
  let chordRoot : ℤ := (getPitches root).getD (degree - 1) 0
  let chord_notes : List ℤ := chordTones chordRoot
  let length_factor : ℚ := 1 + (-(crazy : ℚ) / 20)
  let chordQL : ℚ := max (1/4 : ℚ) (base_len pattern * length_factor)
  let accent : List MEvent :=
    if 5 < crazy ∧ r.accentRoll < ((crazy : ℚ) - 5) / 10 then
      [MEvent.chordEv chord_notes (1/2)]
    else []
  let count : ℕ :=
    match pattern with
    | .ARP => 3
    | .PLUCK => 4
    | .RAND => 2 + (r.randCount : ℕ)
    | _ => 2
  let melody : List MEvent :=
    (List.range count).map (fun idx =>
      let pitch : ℤ :=
        if pattern = .ARP then
          chord_notes.getD (idx % chord_notes.length) 0
        else if pattern = .PLUCK then
          chord_notes.getD (r.pitchIdx idx % chord_notes.length) 0
        else
          (getPitches root).getD (r.pitchIdx idx % (getPitches root).length) 0
      MEvent.noteEv pitch (max (1/8 : ℚ) (noteDuration crazy)))
  MEvent.chordEv chord_notes chordQL :: (accent ++ melody)

/-- Lines 60–61: `beats_needed = self.length * self.tempo / 60.0;`
`measures = int(beats_needed // 4) + 1`, with `self.length` the clamped
length of line 39. -/
def measuresOf (tempo length_sec : ℤ) : ℤ :=
  let length := clampLength length_sec
  let beats_needed : ℚ := (length : ℚ) * (tempo : ℚ) / 60
  ⌊beats_needed / 4⌋ + 1

/-- Lines 63–101: the observable trace of the generation loop — for each
measure `i`, `progress_changed.emit(int(i / measures * 100))` followed by the
measure's events, then the final `progress_changed.emit(100)`. -/
def runTrace (tempo length_sec : ℤ) (pattern : Pattern) (craziness root : ℤ)
    (rands : ℕ → MeasureRand) : List TraceItem :=
  let crazy := clampCraziness craziness
  let measures := measuresOf tempo length_sec
  (List.range measures.toNat).flatMap (fun i =>
    TraceItem.progress ⌊(i : ℚ) / (measures : ℚ) * 100⌋ ::
      (measureEvents pattern crazy root (rands i)).map TraceItem.ev)
  ++ [TraceItem.progress 100]

/-- The progress values of a trace, in emission order. -/
def progressValues (t : List TraceItem) : List ℤ :=
  t.filterMap (fun x => match x with | .progress p => some p | .ev _ => none)

/-- The musical events of a trace, in emission order. -/
def eventsOf (t : List TraceItem) : List MEvent :=
  t.filterMap (fun x => match x with | .progress _ => none | .ev e => some e)

/-- The note (non-chord) events of an event list, in order. -/
def noteEventsOf (es : List MEvent) : List MEvent :=
  es.filter (fun e => match e with | .noteEv _ _ => true | .chordEv _ _ => false)

/-- Lines 181–184 of `MainWindow.start_generation`: the input checks run
before any worker is created.  `int()` parsing is assumed done; this takes
the parsed integers. -/
def start_generation_check (tempo length : ℤ) (save_to : String) :
    Except String (ℤ × ℤ × String) :=
  if length < 1 ∨ 60 < length then Except.error "Length out of range"
  else if save_to = "" then Except.error "No save path specified"
  else Except.ok (tempo, length, save_to)

/-- Lines 179–200: validate the inputs; only on success is a worker created
and run.  The error branch performs no generation work at all. -/
def start_generation (tempo length : ℤ) (save_to : String) (pattern : Pattern)
    (craziness root : ℤ) (rands : ℕ → MeasureRand) :
    Except String (List TraceItem) :=
  match start_generation_check tempo length save_to with
  | .error e => Except.error e
  | .ok _ => Except.ok (runTrace tempo length pattern craziness root rands)

/-- A filesystem path, as a list of components. -/
abbrev Path := List String

/-- The filesystem state visible to the export step: a map from file paths to
contents (as an association list) and the set of existing directories. -/
structure FS where
  files : List (Path × String)
  dirs : List Path
deriving DecidableEq

/-- The content at path `p`, if a file exists there. -/
def fsGet (fs : FS) (p : Path) : Option String :=
  (fs.files.find? (fun e => decide (e.1 = p))).map (fun e => e.2)

/-- Write content `c` at path `p` (creating or overwriting the file). -/
def fsSet (fs : FS) (p : Path) (c : String) : FS :=
  ⟨(p, c) :: fs.files.filter (fun e => decide (e.1 ≠ p)), fs.dirs⟩

/-- Remove the file at path `p`, if any. -/
def fsRemove (fs : FS) (p : Path) : FS :=
  ⟨fs.files.filter (fun e => decide (e.1 ≠ p)), fs.dirs⟩

/-- Model of Python `os.replace(src, dst)`: atomically rename `src` to `dst`,
replacing any existing file at `dst`.  It raises `FileNotFoundError` when
`src` does not exist or when the parent directory of `dst` does not exist;
in either failure the filesystem is unchanged. -/
def osReplace (fs : FS) (src dst : Path) : Except String FS :=
  match fsGet fs src with
  | none => Except.error "FileNotFoundError"
  | some c =>
    if dst.dropLast ∈ fs.dirs then Except.ok (fsSet (fsRemove fs src) dst c)
    else Except.error "FileNotFoundError"

/-- Model of `tempfile.gettempdir()`: the single system-wide temporary
directory, a constant of the environment (assumed to exist, so the staging
write itself always succeeds). -/
def tempDir : Path := ["tmp"]

/-- Line 106: `tmp_path = os.path.join(tempfile.gettempdir(), 'midgen_temp.mid')`
— a constant, computed from no per-run data. -/
def tmp_path : Path := tempDir ++ ["midgen_temp.mid"]

/-- Lines 103–112: serialize (the serialized bytes are the abstract `data`),
write them to `tmp_path`, then `os.replace(tmp_path, save_path)`.  Returns
the resulting filesystem and the terminal outcome: `finished.emit(save_path)`
on success, `error.emit(e)` on failure. -/
def exportMidi (fs : FS) (data : String) (save_path : Path) :
    FS × Except String Path :=
  let fs1 := fsSet fs tmp_path data
  match osReplace fs1 tmp_path save_path with
  | .ok fs2 => (fs2, Except.ok save_path)
  | .error e => (fs1, Except.error e)

/-- A concrete random oracle, used to instantiate the theorems on concrete
runs: the first choice of every `random.choice` / `random.randint`, and a
`random.random()` draw of 0. -/
def r0 : MeasureRand := ⟨0, 0, 0, fun _ => 0⟩

/-- A concrete filesystem holding no files, in which only the temporary
directory exists. -/
def fs0 : FS := ⟨[], [tempDir]⟩

theorem percent_floor_eq (i M : ℕ) :
    ⌊(i : ℚ) / (M : ℚ) * 100⌋ = ((i * 100 / M : ℕ) : ℤ) := by
  have h : (i : ℚ) / (M : ℚ) * 100 = ((i * 100 : ℕ) : ℚ) / ((M : ℕ) : ℚ) := by
    push_cast; ring
  rw [h, ← Int.natCast_floor_eq_floor (by positivity), Nat.floor_div_eq_div]

/-- C2: for every validated configuration (positive tempo, duration in
[1,60]), the measure count computed by the engine equals
`floor(durationSeconds * tempoBpm / 60 / 4) + 1` and is at least 1; at
tempo 120 and duration 10 it is 6. -/
theorem C2_measure_count (tempo length_sec : ℤ) (h1 : 1 ≤ tempo)
    (h2 : 1 ≤ length_sec) (h3 : length_sec ≤ 60) :
    measuresOf tempo length_sec = ⌊(length_sec : ℚ) * (tempo : ℚ) / 60 / 4⌋ + 1
    ∧ 1 ≤ measuresOf tempo length_sec
    ∧ measuresOf 120 10 = 6 := by
  have hcl : clampLength length_sec = length_sec := min_eq_left h3
  have hform : measuresOf tempo length_sec
      = ⌊(length_sec : ℚ) * (tempo : ℚ) / 60 / 4⌋ + 1 := by
    simp only [measuresOf, hcl]
  refine ⟨hform, ?_, by norm_num [measuresOf, clampLength]⟩
  rw [hform]
  have hl : (0 : ℚ) ≤ (length_sec : ℚ) := by exact_mod_cast (by omega : (0:ℤ) ≤ length_sec)
  have ht : (0 : ℚ) ≤ (tempo : ℚ) := by exact_mod_cast (by omega : (0:ℤ) ≤ tempo)
  have hx : (0 : ℚ) ≤ (length_sec : ℚ) * (tempo : ℚ) / 60 / 4 := by positivity
  have := Int.floor_nonneg.2 hx
  omega

theorem C2_measure_count_witness :
    measuresOf 120 10 = ⌊(10 : ℚ) * (120 : ℚ) / 60 / 4⌋ + 1
    ∧ 1 ≤ measuresOf 120 10 ∧ measuresOf 120 10 = 6 :=
  C2_measure_count 120 10 (by norm_num) (by norm_num) (by norm_num)

/-- C3 counterexample: the engine does not raise a raw duration below 1 up
to 1 — handed the raw value 0 it keeps 0, which is outside [1, 60]. -/
theorem C3_counterexample : ¬ (1 ≤ clampLength 0) := by
  norm_num [clampLength]

/-- C3 (amended): the engine clamps a raw durationSeconds only from above,
to at most 60 (10000 becomes 60), before computing measures; any raw value
at most 60 — including values below 1 — passes through unchanged. -/
theorem C3_amended_clamp :
    (∀ raw : ℤ, clampLength raw ≤ 60)
    ∧ (∀ raw : ℤ, raw ≤ 60 → clampLength raw = raw)
    ∧ clampLength 10000 = 60
    ∧ (∀ tempo raw : ℤ, measuresOf tempo raw = measuresOf tempo (clampLength raw)) := by
  refine ⟨fun raw => min_le_right _ _, fun raw h => min_eq_left h,
    by norm_num [clampLength], fun tempo raw => ?_⟩
  have h : clampLength (clampLength raw) = clampLength raw := by
    simp [clampLength, min_assoc]
  simp only [measuresOf, h]

theorem C3_amended_clamp_witness : clampLength (-5) = -5 :=
  C3_amended_clamp.2.1 (-5) (by norm_num)

/-- C8 counterexample: on a duration outside [1, 60] the validation raises
`ValueError("Length out of range")`, whose message is not the claimed
"length out of range". -/
theorem C8_counterexample :
    start_generation_check 120 61 "out.mid" ≠ Except.error "length out of range" := by
  simp [start_generation_check]

/-- C8 (amended): when the validator is given a duration outside [1, 60] it
fails with the message "Length out of range", before any generation work
begins — the run's result is that error and no trace is produced. -/
theorem C8_amended_validation (tempo length : ℤ) (save_to : String)
    (pattern : Pattern) (craziness root : ℤ) (rands : ℕ → MeasureRand)
    (h : length < 1 ∨ 60 < length) :
    start_generation tempo length save_to pattern craziness root rands
      = Except.error "Length out of range"
    ∧ start_generation_check tempo length save_to
      = Except.error "Length out of range" := by
  have hc : start_generation_check tempo length save_to
      = Except.error "Length out of range" := by
    simp [start_generation_check, if_pos h]
  exact ⟨by simp [start_generation, hc], hc⟩

theorem C8_amended_validation_witness :
    start_generation 120 61 "out.mid" Pattern.PAD 0 0 (fun _ => r0)
      = Except.error "Length out of range"
    ∧ start_generation_check 120 61 "out.mid"
      = Except.error "Length out of range" :=
  C8_amended_validation 120 61 "out.mid" Pattern.PAD 0 0 (fun _ => r0)
    (Or.inr (by norm_num))


/-- Every chord event of a measure carries either the main chord duration
`max(0.25, base_len * (1 + (-craziness/20)))` or the accent duration 0.5. -/
lemma chord_mem_ql (pattern : Pattern) (crazy root : ℤ) (r : MeasureRand)
    (ps : List ℤ) (q : ℚ)
    (h : MEvent.chordEv ps q ∈ measureEvents pattern crazy root r) :
    q = max (1/4 : ℚ) (base_len pattern * (1 + (-(crazy : ℚ) / 20))) ∨ q = 1/2 := by
  simp only [measureEvents] at h
  rcases List.mem_cons.1 h with h1 | h1
  · exact Or.inl (MEvent.chordEv.inj h1).2
  · rcases List.mem_append.1 h1 with h2 | h2
    · by_cases hacc : 5 < crazy ∧ r.accentRoll < ((crazy : ℚ) - 5) / 10
      · rw [if_pos hacc] at h2
        exact Or.inr (MEvent.chordEv.inj (List.mem_singleton.1 h2)).2
      · rw [if_neg hacc] at h2
        exact absurd h2 (List.not_mem_nil _)
    · rcases List.mem_map.1 h2 with ⟨idx, -, heq⟩
      exact MEvent.noConfusion heq

/-- Every note event of a measure carries the duration
`max(0.125, noteDuration craziness)`. -/
lemma note_mem_ql (pattern : Pattern) (crazy root : ℤ) (r : MeasureRand)
    (p : ℤ) (q : ℚ)
    (h : MEvent.noteEv p q ∈ measureEvents pattern crazy root r) :
    q = max (1/8 : ℚ) (noteDuration crazy) := by
  simp only [measureEvents] at h
  rcases List.mem_cons.1 h with h1 | h1
  · exact MEvent.noConfusion h1
  · rcases List.mem_append.1 h1 with h2 | h2
    · by_cases hacc : 5 < crazy ∧ r.accentRoll < ((crazy : ℚ) - 5) / 10
      · rw [if_pos hacc] at h2
        exact MEvent.noConfusion (List.mem_singleton.1 h2)
      · rw [if_neg hacc] at h2
        exact absurd h2 (List.not_mem_nil _)
    · rcases List.mem_map.1 h2 with ⟨idx, -, heq⟩
      exact ((MEvent.noteEv.inj heq).2).symm

/-- Under the ARP pattern, every note pitch is the chord tone at some index
`idx % 3` of the measure's triad. -/
lemma note_mem_pitch_ARP (crazy root : ℤ) (r : MeasureRand) (p : ℤ) (q : ℚ)
    (h : MEvent.noteEv p q ∈ measureEvents Pattern.ARP crazy root r) :
    ∃ idx : ℕ, idx < 3 ∧
      p = (chordTones ((getPitches root).getD ([1, 4, 5].get r.degreeIdx - 1) 0)).getD
            (idx % 3) 0 := by
  simp only [measureEvents] at h
  rcases List.mem_cons.1 h with h1 | h1
  · exact MEvent.noConfusion h1
  · rcases List.mem_append.1 h1 with h2 | h2
    · by_cases hacc : 5 < crazy ∧ r.accentRoll < ((crazy : ℚ) - 5) / 10
      · rw [if_pos hacc] at h2
        exact MEvent.noConfusion (List.mem_singleton.1 h2)
      · rw [if_neg hacc] at h2
        exact absurd h2 (List.not_mem_nil _)
    · rcases List.mem_map.1 h2 with ⟨idx, hidx, heq⟩
      refine ⟨idx, List.mem_range.1 hidx, ?_⟩
      have hp := (MEvent.noteEv.inj heq).1
      simpa [chordTones] using hp.symm


lemma eventsOf_append (s t : List TraceItem) :
    eventsOf (s ++ t) = eventsOf s ++ eventsOf t :=
  List.filterMap_append s t _

lemma eventsOf_progress_cons (p : ℤ) (l : List TraceItem) :
    eventsOf (TraceItem.progress p :: l) = eventsOf l := rfl

lemma eventsOf_map_ev (es : List MEvent) : eventsOf (es.map TraceItem.ev) = es := by
  induction es with
  | nil => rfl
  | cons e t ih =>
    have hstep : eventsOf (TraceItem.ev e :: t.map TraceItem.ev)
        = e :: eventsOf (t.map TraceItem.ev) := rfl
    rw [List.map_cons, hstep, ih]

lemma eventsOf_flatMap (l : List ℕ) (f : ℕ → List TraceItem) :
    eventsOf (l.flatMap f) = l.flatMap (fun i => eventsOf (f i)) := by
  induction l with
  | nil => rfl
  | cons a t ih => simp only [List.flatMap_cons, eventsOf_append, ih]

/-- Normal form of the run trace: for each measure `i`, the progress value
`i * 100 / M` (natural division) followed by that measure's events, then the
final explicit emission of 100. -/
lemma runTrace_eq (tempo length_sec : ℤ) (pattern : Pattern) (craziness root : ℤ)
    (rands : ℕ → MeasureRand) (M : ℕ)
    (hM : (M : ℤ) = measuresOf tempo length_sec) :
    runTrace tempo length_sec pattern craziness root rands
      = (List.range M).flatMap (fun i =>
          TraceItem.progress ((i * 100 / M : ℕ) : ℤ) ::
            (measureEvents pattern (clampCraziness craziness) root (rands i)).map
              TraceItem.ev)
        ++ [TraceItem.progress 100] := by
  simp only [runTrace, ← hM, Int.toNat_natCast, Int.cast_natCast, percent_floor_eq]

lemma eventsOf_runTrace (tempo length_sec : ℤ) (pattern : Pattern)
    (craziness root : ℤ) (rands : ℕ → MeasureRand) :
    eventsOf (runTrace tempo length_sec pattern craziness root rands)
      = (List.range (measuresOf tempo length_sec).toNat).flatMap
          (fun i => measureEvents pattern (clampCraziness craziness) root (rands i)) := by
  rcases le_or_lt (measuresOf tempo length_sec) 0 with h | h
  · have h0 : (measuresOf tempo length_sec).toNat = 0 := Int.toNat_of_nonpos h
    rw [h0]
    simp only [runTrace, h0, List.range_zero, List.flatMap_nil, List.nil_append]
    rfl
  · have hM : (((measuresOf tempo length_sec).toNat : ℕ) : ℤ) = measuresOf tempo length_sec :=
      Int.toNat_of_nonneg h.le
    rw [runTrace_eq _ _ _ _ _ _ _ hM, eventsOf_append, eventsOf_flatMap]
    have h100 : eventsOf [TraceItem.progress 100] = [] := rfl
    rw [h100, List.append_nil]
    simp only [eventsOf_progress_cons, eventsOf_map_ev]

/-- C4: for every measure, pattern type and craziness in [-10,10], the
measure's emitted chord has duration
`max(0.25, baseLength * (1 + (-craziness/20)))`, with baseLength 4 for PAD,
2 for CHORD and BRASS, and 1 for all other pattern types. -/
theorem C4_chord_duration (pattern : Pattern) (crazy root : ℤ) (r : MeasureRand)
    (h1 : -10 ≤ crazy) (h2 : crazy ≤ 10) :
    (∃ tones, (measureEvents pattern crazy root r).head? =
        some (MEvent.chordEv tones
          (max (1/4 : ℚ) (base_len pattern * (1 + (-(crazy : ℚ) / 20))))))
    ∧ base_len Pattern.PAD = 4 ∧ base_len Pattern.CHORD = 2
    ∧ base_len Pattern.BRASS = 2 ∧ base_len Pattern.ARP = 1
    ∧ base_len Pattern.PLUCK = 1 ∧ base_len Pattern.RAND = 1 := by
  refine ⟨⟨chordTones ((getPitches root).getD ([1, 4, 5].get r.degreeIdx - 1) 0), ?_⟩,
    rfl, rfl, rfl, rfl, rfl, rfl⟩
  simp only [measureEvents, List.head?_cons]

theorem C4_chord_duration_witness :
    ∃ tones, (measureEvents Pattern.PAD 0 0 r0).head? = some (MEvent.chordEv tones 4) := by
  obtain ⟨⟨tones, h⟩, hPAD, -, -, -, -, -⟩ :=
    C4_chord_duration Pattern.PAD 0 0 r0 (by norm_num) (by norm_num)
  refine ⟨tones, h.trans ?_⟩
  norm_num [hPAD]

/-- C5: every melodic note's duration is
`max(0.125, 1 / (1 + craziness/10))` when craziness is non-negative and
`max(0.125, 1 * (1 + |craziness|/10))` otherwise; at the boundaries,
craziness 10 gives exactly 0.5 and craziness -10 gives exactly 2. -/
theorem C5_note_duration (pattern : Pattern) (crazy root : ℤ) (r : MeasureRand)
    (h1 : -10 ≤ crazy) (h2 : crazy ≤ 10) :
    (∀ p q, MEvent.noteEv p q ∈ measureEvents pattern crazy root r →
        q = if 0 ≤ crazy then max (1/8 : ℚ) (1 / (1 + (crazy : ℚ) / 10))
            else max (1/8 : ℚ) (1 * (1 + |(crazy : ℚ)| / 10)))
    ∧ (crazy = 10 → ∀ p q, MEvent.noteEv p q ∈ measureEvents pattern crazy root r → q = 1/2)
    ∧ (crazy = -10 → ∀ p q, MEvent.noteEv p q ∈ measureEvents pattern crazy root r → q = 2) := by
  refine ⟨?_, ?_, ?_⟩
  · intro p q h
    rw [note_mem_ql pattern crazy root r p q h, noteDuration]
    split_ifs <;> rfl
  · intro hc p q h
    subst hc
    rw [note_mem_ql pattern 10 root r p q h]
    norm_num [noteDuration]
  · intro hc p q h
    subst hc
    rw [note_mem_ql pattern (-10) root r p q h]
    norm_num [noteDuration]

theorem C5_note_duration_witness :
    MEvent.noteEv 0 (1/2) ∈ measureEvents Pattern.CHORD 10 0 r0 ∧ ((1/2 : ℚ) = 1/2) := by
  have hmem : MEvent.noteEv 0 (1/2) ∈ measureEvents Pattern.CHORD 10 0 r0 := by
    norm_num [measureEvents, r0, getPitches, chordTones, noteDuration]
    exact Or.inr (Or.inr ⟨0, by norm_num, fun hco => Pattern.noConfusion hco⟩)
  exact ⟨hmem,
    (C5_note_duration Pattern.CHORD 10 0 r0 (by norm_num) (by norm_num)).2.1 rfl 0 (1/2) hmem⟩

/-- C6: in every generated event sequence — for any craziness, clamped by
the engine into [-10,10] — every chord event (accent chords included) has
duration at least 0.25 and every note event has duration at least 0.125. -/
theorem C6_duration_floors (tempo length_sec : ℤ) (pattern : Pattern)
    (craziness root : ℤ) (rands : ℕ → MeasureRand) :
    (∀ ps q, MEvent.chordEv ps q ∈
        eventsOf (runTrace tempo length_sec pattern craziness root rands) → 1/4 ≤ q)
    ∧ ∀ p q, MEvent.noteEv p q ∈
        eventsOf (runTrace tempo length_sec pattern craziness root rands) → 1/8 ≤ q := by
  rw [eventsOf_runTrace]
  constructor
  · intro ps q hm
    rcases List.mem_flatMap.1 hm with ⟨i, -, hi⟩
    rcases chord_mem_ql _ _ _ _ _ _ hi with hq | hq
    · rw [hq]; exact le_max_left _ _
    · rw [hq]; norm_num
  · intro p q hm
    rcases List.mem_flatMap.1 hm with ⟨i, -, hi⟩
    rw [note_mem_ql _ _ _ _ _ _ hi]
    exact le_max_left _ _

theorem C6_duration_floors_witness :
    MEvent.chordEv [0, 4, 7] 1 ∈ eventsOf (runTrace 120 1 Pattern.ARP 0 0 (fun _ => r0))
    ∧ (1/4 : ℚ) ≤ 1 := by
  have hM : (measuresOf 120 1).toNat = 1 := by norm_num [measuresOf, clampLength]
  have hmem : MEvent.chordEv [0, 4, 7] 1 ∈
      eventsOf (runTrace 120 1 Pattern.ARP 0 0 (fun _ => r0)) := by
    rw [eventsOf_runTrace, hM]
    norm_num [measureEvents, clampCraziness, r0, getPitches, chordTones, base_len]
  exact ⟨hmem, (C6_duration_floors 120 1 Pattern.ARP 0 0 (fun _ => r0)).1 [0, 4, 7] 1 hmem⟩

/-- C7: under the ARPEGGIO pattern the melodic notes of a measure are
exactly the chord tones at indices 0, 1, 2 modulo 3 of the measure's triad,
in that order, so every ARPEGGIO melodic pitch lies in the measure's 3-tone
chord set. -/
theorem C7_arpeggio_chord_locked (crazy root : ℤ) (r : MeasureRand) (cr : ℤ)
    (hcr : cr = (getPitches root).getD ([1, 4, 5].get r.degreeIdx - 1) 0) :
    noteEventsOf (measureEvents Pattern.ARP crazy root r)
      = (List.range 3).map (fun k =>
          MEvent.noteEv ((chordTones cr).getD (k % 3) 0)
            (max (1/8 : ℚ) (noteDuration crazy)))
    ∧ ∀ p q, MEvent.noteEv p q ∈ measureEvents Pattern.ARP crazy root r →
        p ∈ chordTones cr := by
  subst hcr
  constructor
  · by_cases hacc : 5 < crazy ∧ r.accentRoll < ((crazy : ℚ) - 5) / 10 <;>
      simp [noteEventsOf, measureEvents, hacc, List.filter_map, chordTones] <;>
      exact congrArg _ (List.filter_eq_self.2 (fun a _ => rfl))
  · intro p q h
    rcases note_mem_pitch_ARP crazy root r p q h with ⟨idx, hidx, hp⟩
    rw [hp]
    have hlen : idx % 3 <
        (chordTones ((getPitches root).getD ([1, 4, 5].get r.degreeIdx - 1) 0)).length := by
      simp [chordTones]
      omega
    rw [List.getD_eq_getElem _ _ hlen]
    exact List.getElem_mem hlen

theorem C7_arpeggio_chord_locked_witness :
    MEvent.noteEv 4 1 ∈ measureEvents Pattern.ARP 0 0 r0 ∧ (4 : ℤ) ∈ chordTones 0 := by
  have hmem : MEvent.noteEv 4 1 ∈ measureEvents Pattern.ARP 0 0 r0 := by
    norm_num [measureEvents, r0, getPitches, chordTones, noteDuration]
    exact Or.inr ⟨1, by norm_num, rfl⟩
  exact ⟨hmem, (C7_arpeggio_chord_locked 0 0 r0 0 rfl).2 4 1 hmem⟩


lemma progressValues_append (s t : List TraceItem) :
    progressValues (s ++ t) = progressValues s ++ progressValues t :=
  List.filterMap_append s t _

lemma progressValues_progress_cons (p : ℤ) (l : List TraceItem) :
    progressValues (TraceItem.progress p :: l) = p :: progressValues l := rfl

lemma progressValues_map_ev (es : List MEvent) :
    progressValues (es.map TraceItem.ev) = [] := by
  induction es with
  | nil => rfl
  | cons e t ih =>
    have hstep : progressValues (TraceItem.ev e :: t.map TraceItem.ev)
        = progressValues (t.map TraceItem.ev) := rfl
    rw [List.map_cons, hstep, ih]

lemma progressValues_flatMap (l : List ℕ) (f : ℕ → List TraceItem) :
    progressValues (l.flatMap f) = l.flatMap (fun i => progressValues (f i)) := by
  induction l with
  | nil => rfl
  | cons a t ih => simp only [List.flatMap_cons, progressValues_append, ih]

lemma flatMap_singleton_map (l : List ℕ) (f : ℕ → ℤ) :
    (l.flatMap fun i => [f i]) = l.map f := by
  induction l with
  | nil => rfl
  | cons a t ih => simp only [List.flatMap_cons, List.map_cons, List.singleton_append, ih]

lemma progressValues_runTrace (tempo length_sec : ℤ) (pattern : Pattern)
    (craziness root : ℤ) (rands : ℕ → MeasureRand) (M : ℕ)
    (hM : (M : ℤ) = measuresOf tempo length_sec) :
    progressValues (runTrace tempo length_sec pattern craziness root rands)
      = (List.range M).map (fun i => ((i * 100 / M : ℕ) : ℤ)) ++ [100] := by
  rw [runTrace_eq _ _ _ _ _ _ _ hM, progressValues_append, progressValues_flatMap]
  have h100 : progressValues [TraceItem.progress 100] = [100] := rfl
  rw [h100]
  congr 1
  simp only [progressValues_progress_cons, progressValues_map_ev]
  exact flatMap_singleton_map (List.range M) _

/-- C1: for every configuration whose measure count M is at least 1, the
trace consists, for each measure i, of the progress emission
`floor(i / M * 100)` followed by that measure's events, then one final
explicit emission of 100; the emitted progress sequence is non-decreasing,
every value lies in [0,100], no per-iteration value equals 100, and the
last emitted value is exactly 100. -/
theorem C1_progress_reporting (tempo length_sec : ℤ) (pattern : Pattern)
    (craziness root : ℤ) (rands : ℕ → MeasureRand) (M : ℕ)
    (hM : (M : ℤ) = measuresOf tempo length_sec) (hM1 : 1 ≤ M) :
    runTrace tempo length_sec pattern craziness root rands
      = (List.range M).flatMap (fun i =>
          TraceItem.progress ((i * 100 / M : ℕ) : ℤ) ::
            (measureEvents pattern (clampCraziness craziness) root (rands i)).map
              TraceItem.ev)
        ++ [TraceItem.progress 100]
    ∧ progressValues (runTrace tempo length_sec pattern craziness root rands)
      = (List.range M).map (fun i => ((i * 100 / M : ℕ) : ℤ)) ++ [100]
    ∧ (progressValues (runTrace tempo length_sec pattern craziness root rands)).Chain'
        (fun a b => a ≤ b)
    ∧ (∀ p ∈ progressValues (runTrace tempo length_sec pattern craziness root rands),
        0 ≤ p ∧ p ≤ 100)
    ∧ (∀ i < M, ((i * 100 / M : ℕ) : ℤ) ≠ 100)
    ∧ (progressValues (runTrace tempo length_sec pattern craziness root rands)).getLast?
        = some 100 := by
  have hps := progressValues_runTrace tempo length_sec pattern craziness root rands M hM
  have hMpos : 0 < M := hM1
  have hlt : ∀ i, i < M → (i * 100 / M : ℕ) < 100 := by
    intro i hi
    rw [Nat.div_lt_iff_lt_mul hMpos]
    omega
  refine ⟨runTrace_eq _ _ _ _ _ _ _ hM, hps, ?_, ?_, ?_, ?_⟩
  · rw [hps]
    apply List.Pairwise.chain'
    rw [List.pairwise_append]
    refine ⟨?_, List.pairwise_singleton _ _, ?_⟩
    · rw [List.pairwise_map]
      refine List.Pairwise.imp ?_ (List.pairwise_lt_range M)
      intro a b hab
      exact_mod_cast Nat.div_le_div_right (Nat.mul_le_mul_right 100 hab.le)
    · intro a ha b hb
      rcases List.mem_map.1 ha with ⟨i, hi, rfl⟩
      rcases List.mem_singleton.1 hb with rfl
      have := hlt i (List.mem_range.1 hi)
      omega
  · intro p hp
    rw [hps] at hp
    rcases List.mem_append.1 hp with h | h
    · rcases List.mem_map.1 h with ⟨i, hi, rfl⟩
      have h100 := hlt i (List.mem_range.1 hi)
      revert h100
      generalize (i * 100 / M : ℕ) = k
      intro h100
      constructor <;> omega
    · rcases List.mem_singleton.1 h with rfl
      norm_num
  · intro i hi
    have h100 := hlt i hi
    revert h100
    generalize (i * 100 / M : ℕ) = k
    intro h100
    omega
  · rw [hps, List.getLast?_concat]

theorem C1_progress_reporting_witness :
    (progressValues (runTrace 120 10 Pattern.PAD 0 0 (fun _ => r0))).getLast? = some 100 := by
  have hM : ((6 : ℕ) : ℤ) = measuresOf 120 10 := by norm_num [measuresOf, clampLength]
  exact (C1_progress_reporting 120 10 Pattern.PAD 0 0 (fun _ => r0) 6 hM
    (by norm_num)).2.2.2.2.2

lemma find?_filter_ne (l : List (Path × String)) (p q : Path) (h : q ≠ p) :
    (l.filter (fun e => decide (e.1 ≠ p))).find? (fun e => decide (e.1 = q))
      = l.find? (fun e => decide (e.1 = q)) := by
  induction l with
  | nil => rfl
  | cons a t ih =>
    by_cases hp : a.1 = p
    · have hq : ¬ (a.1 = q) := fun hh => h (hh.symm.trans hp)
      rw [List.filter_cons, if_neg (by simp [hp]), List.find?_cons_of_neg _ (by simp [hq]), ih]
    · rw [List.filter_cons, if_pos (by simp [hp])]
      by_cases hq : a.1 = q
      · rw [List.find?_cons_of_pos _ (by simp [hq]), List.find?_cons_of_pos _ (by simp [hq])]
      · rw [List.find?_cons_of_neg _ (by simp [hq]), List.find?_cons_of_neg _ (by simp [hq]), ih]

lemma fsGet_fsSet_self (fs : FS) (p : Path) (c : String) :
    fsGet (fsSet fs p c) p = some c := by
  simp [fsGet, fsSet]

lemma fsGet_fsSet_ne (fs : FS) (p : Path) (c : String) (q : Path) (h : q ≠ p) :
    fsGet (fsSet fs p c) q = fsGet fs q := by
  simp only [fsGet, fsSet]
  rw [List.find?_cons_of_neg _ (by simp [Ne.symm h]), find?_filter_ne fs.files p q h]

lemma fsSet_dirs (fs : FS) (p : Path) (c : String) : (fsSet fs p c).dirs = fs.dirs := rfl

/-- When the destination's parent directory does not exist, the export
writes the staging file and then fails, leaving the filesystem with only
the staging write applied. -/
lemma exportMidi_fail (fs : FS) (data : String) (dest : Path)
    (h : dest.dropLast ∉ fs.dirs) :
    exportMidi fs data dest = (fsSet fs tmp_path data, Except.error "FileNotFoundError") := by
  have hg : fsGet (fsSet fs tmp_path data) tmp_path = some data :=
    fsGet_fsSet_self fs tmp_path data
  simp only [exportMidi, osReplace, hg, fsSet_dirs, if_neg h]

/-- C9: the exporter stages into a temporary file and atomically replaces
the destination; when the destination's directory does not exist the run
reports a single error outcome and the destination path is left exactly as
it was (in particular, absent if it was absent). -/
theorem C9_atomic_failure (fs : FS) (data : String) (dest : Path)
    (h1 : dest.dropLast ∉ fs.dirs) (h2 : dest ≠ tmp_path) :
    (exportMidi fs data dest).2 = Except.error "FileNotFoundError"
    ∧ fsGet (exportMidi fs data dest).1 dest = fsGet fs dest := by
  rw [exportMidi_fail fs data dest h1]
  exact ⟨rfl, fsGet_fsSet_ne fs tmp_path data dest h2⟩

theorem C9_atomic_failure_witness :
    (exportMidi fs0 "MThd" ["nodir", "out.mid"]).2 = Except.error "FileNotFoundError"
    ∧ fsGet (exportMidi fs0 "MThd" ["nodir", "out.mid"]).1 ["nodir", "out.mid"]
      = fsGet fs0 ["nodir", "out.mid"] :=
  C9_atomic_failure fs0 "MThd" ["nodir", "out.mid"] (by decide) (by decide)

/-- C10: the staging path is the fixed constant file `midgen_temp.mid`
inside the system-wide temporary directory, independent of the data being
written and of the destination: any two runs stage into one and the same
file, the second overwriting the first. -/
theorem C10_constant_staging (fs : FS) (d1 d2 : String) (dest1 dest2 : Path)
    (h1 : dest1.dropLast ∉ fs.dirs) (h2 : dest2.dropLast ∉ fs.dirs) :
    tmp_path = tempDir ++ ["midgen_temp.mid"]
    ∧ fsGet (exportMidi fs d1 dest1).1 tmp_path = some d1
    ∧ fsGet (exportMidi (exportMidi fs d1 dest1).1 d2 dest2).1 tmp_path = some d2 := by
  have e1 := exportMidi_fail fs d1 dest1 h1
  have hdirs : ((exportMidi fs d1 dest1).1).dirs = fs.dirs := by
    rw [e1]
    exact rfl
  have e2 := exportMidi_fail (exportMidi fs d1 dest1).1 d2 dest2 (by rw [hdirs]; exact h2)
  refine ⟨rfl, ?_, ?_⟩
  · rw [e1]
    exact fsGet_fsSet_self fs tmp_path d1
  · rw [e2]
    exact fsGet_fsSet_self _ tmp_path d2

theorem C10_constant_staging_witness :
    tmp_path = tempDir ++ ["midgen_temp.mid"]
    ∧ fsGet (exportMidi fs0 "D1" ["a", "x.mid"]).1 tmp_path = some "D1"
    ∧ fsGet (exportMidi (exportMidi fs0 "D1" ["a", "x.mid"]).1 "D2" ["b", "y.mid"]).1 tmp_path
      = some "D2" :=
  C10_constant_staging fs0 "D1" "D2" ["a", "x.mid"] ["b", "y.mid"] (by decide) (by decide)

end MidGen
